import Mathlib

/-!
Verification development for the Pyston garbage collector interface
(src/gc/gc.h).  The repository ships only the public headers: the visitor
contract, the allocation-kind enumeration, the control surface, and the
inline helper classes.  Inline code (visitIf, the visitRedundant family,
GCAllocatedRuntime operator new/delete, UniqueScanningHandle) is embedded
directly from the source; the collector engine bodies (visit, runCollection,
the sweep and finalization queues) are not in the repository, so they are
modelled from the specification text, as marked in each doc comment.

Machine pointers are modelled as natural numbers, with 0 standing for the
null pointer.  The per-allocation mark bit is modelled as membership in an
explicit set of marked user pointers, which is equivalent to one bit per
allocation header.
-/

namespace PystonGC

/-- GCKind from src/gc/gc.h: the allocation classification tag fixed at
allocation time, driving the scan strategy. -/
inductive GCKind where
  | PYTHON
  | CONSERVATIVE
  | PRECISE
  | UNTRACKED
  | RUNTIME
  deriving DecidableEq, Repr

/-- Modelled from the spec: a heap allocation header.  It records the size,
the immutable GCKind, the pointer-sized word contents of the user data
section (for PYTHON and RUNTIME objects these are the words the visitation
handler reports), and whether a finalizer or outstanding weak references
are attached. -/
structure GCAllocation where
  nbytes : Nat
  kind : GCKind
  contents : List Nat
  hasFinalizer : Bool
  hasWeakrefs : Bool
  deriving DecidableEq, Repr

/-- Modelled from the spec: the heap is a finite map from user pointers to
allocation headers, kept as an association list so that the sweep phase
enumerates allocations in a definite (discovery) order. -/
structure Heap where
  allocs : List (Nat × GCAllocation)
  deriving DecidableEq, Repr

/-- Modelled from the spec: the O(1) header lookup from a user pointer. -/
def Heap.lookup (h : Heap) (p : Nat) : Option GCAllocation :=
  (h.allocs.find? (fun e => e.fst = p)).map Prod.snd

/-- Whether a word value resolves via the header lookup to a live
allocation (the classifier lookup used by conservative scanning). -/
def isValid (h : Heap) (p : Nat) : Bool :=
  (h.lookup p).isSome

/-- Modelled from the spec: the mark-phase working state, namely the set of
marked user pointers (one mark bit per allocation) and the Trace Stack,
the explicit work list of pending pointers. -/
structure MarkState where
  marked : List Nat
  stack : List Nat
  deriving DecidableEq, Repr

/-- Modelled from the spec: GCVisitor visit.  If the target allocation has
its mark bit unset, set it and push the user pointer onto the Trace Stack;
if already set, no-op.  Passing a value that is not a live user pointer is
a caller error with undefined outcome in the source; the model makes it a
no-op so that the function is total. -/
def visit (h : Heap) (s : MarkState) (p : Nat) : MarkState :=
  if isValid h p ∧ p ∉ s.marked then ⟨p :: s.marked, p :: s.stack⟩ else s

/-- GCVisitor visitIf from src/gc/gc.h lines 34-37: visit guarded by a
null check. -/
def visitIf (h : Heap) (s : MarkState) (p : Nat) : MarkState :=
  if p ≠ 0 then visit h s p else s

/-- Modelled from the spec: GCVisitor visitPotential.  The value is maybe a
pointer: validate that it corresponds to a live allocation via the header
lookup before marking; values that do not match a known allocation are
silently ignored. -/
def visitPotential (h : Heap) (s : MarkState) (w : Nat) : MarkState :=
  if isValid h w then visit h s w else s

/-- Modelled from the spec: visitRange applies visit to every slot of the
range, treated as definite pointers. -/
def visitRange (h : Heap) (s : MarkState) (ws : List Nat) : MarkState :=
  ws.foldl (visit h) s

/-- Modelled from the spec: visitPotentialRange applies visitPotential to
every word of the range. -/
def visitPotentialRange (h : Heap) (s : MarkState) (ws : List Nat) : MarkState :=
  ws.foldl (visitPotential h) s

/-- GCVisitor visitRedundant from src/gc/gc.h line 52: empty body in the
non-moving design. -/
def visitRedundant (s : MarkState) (p : Nat) : MarkState :=
  s

/-- GCVisitor visitRedundantRange from src/gc/gc.h line 53: empty body. -/
def visitRedundantRange (s : MarkState) (ws : List Nat) : MarkState :=
  s

/-- GCVisitor visitPotentialRedundant from src/gc/gc.h line 54: empty
body. -/
def visitPotentialRedundant (s : MarkState) (p : Nat) : MarkState :=
  s

/-- GCVisitor visitPotentialRangeRedundant from src/gc/gc.h line 55: empty
body. -/
def visitPotentialRangeRedundant (s : MarkState) (ws : List Nat) : MarkState :=
  s

/-- Modelled from the spec: the Draining dispatch on GCKind.  PYTHON invokes
the registered handler, RUNTIME the virtual visitation method, PRECISE a
visitRange over the extent (all reporting definite pointers); CONSERVATIVE
is scanned with visitPotentialRange; UNTRACKED is never scanned. -/
def scanAllocation (h : Heap) (s : MarkState) (p : Nat) : MarkState :=
  match h.lookup p with
  | none => s
  | some a =>
    match a.kind with
    | GCKind.UNTRACKED => s
    | GCKind.CONSERVATIVE => visitPotentialRange h s a.contents
    | _ => visitRange h s a.contents

/-- Pointer edges of the marking traversal: the successor words of an
allocation that resolve to live allocations, empty for UNTRACKED blocks. -/
def succs (h : Heap) (p : Nat) : List Nat :=
  match h.lookup p with
  | none => []
  | some a =>
    match a.kind with
    | GCKind.UNTRACKED => []
    | _ => a.contents.filter (fun w => isValid h w)

/-- Membership in the key list of the heap characterizes validity. -/
theorem isValid_mem_keys (h : Heap) (p : Nat) (hv : isValid h p) :
    p ∈ h.allocs.map Prod.fst := by
  unfold isValid Heap.lookup at hv
  rcases Option.isSome_iff_exists.mp hv with ⟨a, ha⟩
  rcases Option.map_eq_some'.mp ha with ⟨e, he, _⟩
  have hfst : e.fst = p := by
    have := List.find?_some he
    exact of_decide_eq_true this
  exact hfst ▸ List.mem_map_of_mem Prod.fst (List.mem_of_find?_eq_some he)

/-- Termination measure for the work-list drain: twice the number of live
allocations whose mark bit is still unset, plus the Trace Stack depth.
Each iteration pops one entry and every push is paired with a fresh
mark. -/
def mu (h : Heap) (s : MarkState) : Nat :=
  2 * ((h.allocs.map Prod.fst).toFinset \ s.marked.toFinset).card + s.stack.length

theorem visit_mu_le (h : Heap) (s : MarkState) (p : Nat) :
    mu h (visit h s p) ≤ mu h s := by
  unfold visit
  split
  · next hcond =>
    obtain ⟨hv, hnm⟩ := hcond
    have hmem : p ∈ h.allocs.map Prod.fst := isValid_mem_keys h p hv
    have hpK : p ∈ (h.allocs.map Prod.fst).toFinset := List.mem_toFinset.mpr hmem
    have hpM : p ∉ s.marked.toFinset := fun hc => hnm (List.mem_toFinset.mp hc)
    have hsd : p ∈ (h.allocs.map Prod.fst).toFinset \ s.marked.toFinset :=
      Finset.mem_sdiff.mpr ⟨hpK, hpM⟩
    have hcard : ((h.allocs.map Prod.fst).toFinset \ (p :: s.marked).toFinset).card
        = ((h.allocs.map Prod.fst).toFinset \ s.marked.toFinset).card - 1 := by
      rw [List.toFinset_cons, Finset.sdiff_insert, Finset.card_erase_of_mem hsd]
    have hpos : 0 < ((h.allocs.map Prod.fst).toFinset \ s.marked.toFinset).card :=
      Finset.card_pos.mpr ⟨p, hsd⟩
    simp only [mu, hcard, List.length_cons]
    omega
  · exact Nat.le_refl _

theorem visitPotential_eq_visit (h : Heap) (s : MarkState) (w : Nat) :
    visitPotential h s w = visit h s w := by
  unfold visitPotential visit
  by_cases hv : isValid h w
  · simp [hv]
  · simp [hv]

theorem visitRange_mu_le (h : Heap) (ws : List Nat) (s : MarkState) :
    mu h (visitRange h s ws) ≤ mu h s := by
  induction ws generalizing s with
  | nil => simp [visitRange]
  | cons w ws ih =>
    calc mu h (visitRange h (visit h s w) ws) ≤ mu h (visit h s w) := ih _
    _ ≤ mu h s := visit_mu_le h s w

theorem visitPotentialRange_eq_visitRange (h : Heap) (ws : List Nat) (s : MarkState) :
    visitPotentialRange h s ws = visitRange h s ws := by
  induction ws generalizing s with
  | nil => rfl
  | cons w ws ih =>
    simp only [visitPotentialRange, visitRange, List.foldl_cons] at *
    rw [visitPotential_eq_visit]
    exact ih _

theorem scanAllocation_mu_le (h : Heap) (s : MarkState) (p : Nat) :
    mu h (scanAllocation h s p) ≤ mu h s := by
  unfold scanAllocation
  cases h.lookup p with
  | none => exact Nat.le_refl _
  | some a =>
    cases hk : a.kind <;>
      simp only [hk, visitPotentialRange_eq_visitRange] <;>
      first
        | exact Nat.le_refl _
        | exact visitRange_mu_le h a.contents s

/-- Modelled from the spec: the Draining phase.  Repeatedly pop from the
Trace Stack and dispatch the popped allocation to its scan strategy until
the stack is empty: the fixed point of reachability. -/
def drain (h : Heap) (s : MarkState) : MarkState :=
  match hs : s.stack with
  | [] => s
  | p :: rest =>
    drain h (scanAllocation h ⟨s.marked, rest⟩ p)
termination_by mu h s
decreasing_by
  have h1 : mu h (scanAllocation h ⟨s.marked, rest⟩ p) ≤ mu h ⟨s.marked, rest⟩ :=
    scanAllocation_mu_le h ⟨s.marked, rest⟩ p
  have h2 : mu h ⟨s.marked, rest⟩ < mu h s := by
    simp only [mu, hs, List.length_cons]
    omega
  omega

theorem drain_eq_base (h : Heap) (s : MarkState) (hs : s.stack = []) :
    drain h s = s := by
  rw [drain]
  split
  · rfl
  · next p rest hr => rw [hs] at hr; cases hr

theorem drain_eq_step (h : Heap) (s : MarkState) (p : Nat) (rest : List Nat)
    (hs : s.stack = p :: rest) :
    drain h s = drain h (scanAllocation h ⟨s.marked, rest⟩ p) := by
  rw [drain]
  split
  · next he => rw [hs] at he; cases he
  · next q r hr => rw [hs] at hr; cases hr; rfl

/-- Reachability along pointer edges from a root list: the root case covers
any root word that resolves to a live allocation, the step case follows the
successor edges of the scan strategies. -/
inductive Reaches (h : Heap) (roots : List Nat) : Nat → Prop where
  | root (p : Nat) : p ∈ roots → isValid h p → Reaches h roots p
  | step (p q : Nat) : Reaches h roots p → q ∈ succs h p → Reaches h roots q

theorem visit_marked_mono (h : Heap) (s : MarkState) (p : Nat) :
    s.marked ⊆ (visit h s p).marked := by
  unfold visit
  split
  · exact fun q hq => List.mem_cons_of_mem p hq
  · exact fun q hq => hq

theorem visit_marked_sub (h : Heap) (s : MarkState) (p q : Nat) :
    q ∈ (visit h s p).marked → q ∈ s.marked ∨ (q = p ∧ isValid h p) := by
  unfold visit
  split
  · next hc =>
    intro hq
    rcases List.mem_cons.mp hq with hq | hq
    · exact Or.inr ⟨hq, hc.1⟩
    · exact Or.inl hq
  · exact fun hq => Or.inl hq

theorem visit_marks (h : Heap) (s : MarkState) (p : Nat) (hv : isValid h p) :
    p ∈ (visit h s p).marked := by
  unfold visit
  split
  · exact List.mem_cons_self p _
  · next hc =>
    rw [not_and] at hc
    have := hc hv
    rw [not_not] at this
    exact this

theorem visit_stack_mono (h : Heap) (s : MarkState) (p : Nat) :
    s.stack ⊆ (visit h s p).stack := by
  unfold visit
  split
  · exact fun q hq => List.mem_cons_of_mem p hq
  · exact fun q hq => hq

theorem visit_stack_sub (h : Heap) (s : MarkState) (p q : Nat) :
    q ∈ (visit h s p).stack → q ∈ s.stack ∨ q ∈ (visit h s p).marked := by
  unfold visit
  split
  · intro hq
    rcases List.mem_cons.mp hq with hq | hq
    · exact Or.inr (hq ▸ List.mem_cons_self q _)
    · exact Or.inl hq
  · exact fun hq => Or.inl hq

theorem visit_new_marked_stack (h : Heap) (s : MarkState) (p q : Nat) :
    q ∈ (visit h s p).marked → q ∉ s.marked → q ∈ (visit h s p).stack := by
  unfold visit
  split
  · intro hq hnq
    rcases List.mem_cons.mp hq with hq | hq
    · exact hq ▸ List.mem_cons_self q _
    · exact absurd hq hnq
  · exact fun hq hnq => absurd hq hnq

theorem visitRange_marked_mono (h : Heap) (ws : List Nat) (s : MarkState) :
    s.marked ⊆ (visitRange h s ws).marked := by
  induction ws generalizing s with
  | nil => exact fun q hq => hq
  | cons w ws ih =>
    exact fun q hq => ih (visit h s w) (visit_marked_mono h s w hq)

theorem visitRange_marked_sub (h : Heap) (ws : List Nat) (s : MarkState) (q : Nat) :
    q ∈ (visitRange h s ws).marked → q ∈ s.marked ∨ (q ∈ ws ∧ isValid h q) := by
  induction ws generalizing s with
  | nil => exact fun hq => Or.inl hq
  | cons w ws ih =>
    intro hq
    rcases ih (visit h s w) hq with hq | ⟨hmem, hv⟩
    · rcases visit_marked_sub h s w q hq with hq | ⟨he, hv⟩
      · exact Or.inl hq
      · subst he
        exact Or.inr ⟨List.mem_cons_self q ws, hv⟩
    · exact Or.inr ⟨List.mem_cons_of_mem w hmem, hv⟩

theorem visitRange_covers (h : Heap) (ws : List Nat) (s : MarkState) (q : Nat) :
    q ∈ ws → isValid h q → q ∈ (visitRange h s ws).marked := by
  induction ws generalizing s with
  | nil => intro hq _; cases hq
  | cons w ws ih =>
    intro hq hv
    rcases List.mem_cons.mp hq with hq | hq
    · subst hq
      exact visitRange_marked_mono h ws (visit h s q) (visit_marks h s q hv)
    · exact ih (visit h s w) hq hv

theorem visitRange_stack_mono (h : Heap) (ws : List Nat) (s : MarkState) :
    s.stack ⊆ (visitRange h s ws).stack := by
  induction ws generalizing s with
  | nil => exact fun q hq => hq
  | cons w ws ih =>
    exact fun q hq => ih (visit h s w) (visit_stack_mono h s w hq)

theorem visitRange_stack_sub (h : Heap) (ws : List Nat) (s : MarkState) (q : Nat) :
    q ∈ (visitRange h s ws).stack → q ∈ s.stack ∨ q ∈ (visitRange h s ws).marked := by
  induction ws generalizing s with
  | nil => exact fun hq => Or.inl hq
  | cons w ws ih =>
    intro hq
    rcases ih (visit h s w) hq with hq | hq
    · rcases visit_stack_sub h s w q hq with hq | hq
      · exact Or.inl hq
      · exact Or.inr (visitRange_marked_mono h ws (visit h s w) hq)
    · exact Or.inr hq

theorem visitRange_new_marked_stack (h : Heap) (ws : List Nat) (s : MarkState) (q : Nat) :
    q ∈ (visitRange h s ws).marked → q ∉ s.marked → q ∈ (visitRange h s ws).stack := by
  induction ws generalizing s with
  | nil => exact fun hq hnq => absurd hq hnq
  | cons w ws ih =>
    intro hq hnq
    by_cases hmid : q ∈ (visit h s w).marked
    · exact visitRange_stack_mono h ws (visit h s w)
        (visit_new_marked_stack h s w q hmid hnq)
    · exact ih (visit h s w) hq hmid

theorem scanAllocation_spec (h : Heap) (s : MarkState) (p : Nat) :
    ∃ ws, scanAllocation h s p = visitRange h s ws
      ∧ (∀ q, (q ∈ ws ∧ isValid h q) ↔ q ∈ succs h p) := by
  unfold scanAllocation succs
  cases h.lookup p with
  | none =>
    refine ⟨[], rfl, fun q => ?_⟩
    simp
  | some a =>
    cases hk : a.kind
    case UNTRACKED =>
      refine ⟨[], by simp [hk]; rfl, fun q => ?_⟩
      simp [hk]
    all_goals
      refine ⟨a.contents, by simp [hk, visitPotentialRange_eq_visitRange], fun q => ?_⟩
    all_goals
      simp [hk, List.mem_filter]

theorem scanAllocation_marked_mono (h : Heap) (s : MarkState) (p : Nat) :
    s.marked ⊆ (scanAllocation h s p).marked := by
  obtain ⟨ws, hws, _⟩ := scanAllocation_spec h s p
  rw [hws]
  exact visitRange_marked_mono h ws s

theorem scanAllocation_marked_sub (h : Heap) (s : MarkState) (p q : Nat) :
    q ∈ (scanAllocation h s p).marked → q ∈ s.marked ∨ q ∈ succs h p := by
  obtain ⟨ws, hws, hiff⟩ := scanAllocation_spec h s p
  rw [hws]
  intro hq
  rcases visitRange_marked_sub h ws s q hq with hq | hq
  · exact Or.inl hq
  · exact Or.inr ((hiff q).mp hq)

theorem scanAllocation_covers (h : Heap) (s : MarkState) (p q : Nat) :
    q ∈ succs h p → q ∈ (scanAllocation h s p).marked := by
  obtain ⟨ws, hws, hiff⟩ := scanAllocation_spec h s p
  rw [hws]
  intro hq
  obtain ⟨hmem, hv⟩ := (hiff q).mpr hq
  exact visitRange_covers h ws s q hmem hv

theorem scanAllocation_stack_mono (h : Heap) (s : MarkState) (p : Nat) :
    s.stack ⊆ (scanAllocation h s p).stack := by
  obtain ⟨ws, hws, _⟩ := scanAllocation_spec h s p
  rw [hws]
  exact visitRange_stack_mono h ws s

theorem scanAllocation_stack_sub (h : Heap) (s : MarkState) (p q : Nat) :
    q ∈ (scanAllocation h s p).stack → q ∈ s.stack ∨ q ∈ (scanAllocation h s p).marked := by
  obtain ⟨ws, hws, _⟩ := scanAllocation_spec h s p
  rw [hws]
  exact visitRange_stack_sub h ws s q

theorem scanAllocation_new_marked_stack (h : Heap) (s : MarkState) (p q : Nat) :
    q ∈ (scanAllocation h s p).marked → q ∉ s.marked → q ∈ (scanAllocation h s p).stack := by
  obtain ⟨ws, hws, _⟩ := scanAllocation_spec h s p
  rw [hws]
  exact visitRange_new_marked_stack h ws s q

/-- Loop invariant of the Draining phase: every marked allocation is
reachable, every pending Trace Stack entry is already marked, and every
marked allocation no longer pending has all its successors marked. -/
structure Inv (h : Heap) (roots : List Nat) (s : MarkState) : Prop where
  sound : ∀ q ∈ s.marked, Reaches h roots q
  stackMarked : ∀ q ∈ s.stack, q ∈ s.marked
  closed : ∀ p ∈ s.marked, p ∉ s.stack → ∀ q ∈ succs h p, q ∈ s.marked

theorem inv_step (h : Heap) (roots : List Nat) (s : MarkState) (p : Nat)
    (rest : List Nat) (hs : s.stack = p :: rest) (hInv : Inv h roots s) :
    Inv h roots (scanAllocation h ⟨s.marked, rest⟩ p) := by
  have hpm : p ∈ s.marked := hInv.stackMarked p (by rw [hs]; exact List.mem_cons_self p rest)
  have hpr : Reaches h roots p := hInv.sound p hpm
  refine ⟨?_, ?_, ?_⟩
  · intro q hq
    rcases scanAllocation_marked_sub h ⟨s.marked, rest⟩ p q hq with hq | hq
    · exact hInv.sound q hq
    · exact Reaches.step p q hpr hq
  · intro q hq
    rcases scanAllocation_stack_sub h ⟨s.marked, rest⟩ p q hq with hq | hq
    · have : q ∈ s.stack := by rw [hs]; exact List.mem_cons_of_mem p hq
      exact scanAllocation_marked_mono h ⟨s.marked, rest⟩ p (hInv.stackMarked q this)
    · exact hq
  · intro r hr hnr q hq
    by_cases hrm : r ∈ s.marked
    · by_cases hrs : r ∈ s.stack
      · rw [hs] at hrs
        rcases List.mem_cons.mp hrs with hrp | hrr
        · subst hrp
          exact scanAllocation_covers h ⟨s.marked, rest⟩ r q hq
        · exact absurd (scanAllocation_stack_mono h ⟨s.marked, rest⟩ p hrr) hnr
      · exact scanAllocation_marked_mono h ⟨s.marked, rest⟩ p
          (hInv.closed r hrm hrs q hq)
    · exact absurd (scanAllocation_new_marked_stack h ⟨s.marked, rest⟩ p r hr hrm) hnr

theorem drain_stack_nil (h : Heap) (s : MarkState) : (drain h s).stack = [] := by
  induction s using drain.induct h with
  | case1 s hs => rw [drain_eq_base h s hs, hs]
  | case2 s p rest hs ih => rw [drain_eq_step h s p rest hs]; exact ih

theorem drain_marked_mono (h : Heap) (s : MarkState) :
    s.marked ⊆ (drain h s).marked := by
  induction s using drain.induct h with
  | case1 s hs => rw [drain_eq_base h s hs]; exact fun q hq => hq
  | case2 s p rest hs ih =>
    rw [drain_eq_step h s p rest hs]
    exact fun q hq => ih (scanAllocation_marked_mono h ⟨s.marked, rest⟩ p hq)

theorem drain_inv (h : Heap) (roots : List Nat) (s : MarkState) (hInv : Inv h roots s) :
    Inv h roots (drain h s) := by
  induction s using drain.induct h with
  | case1 s hs => rw [drain_eq_base h s hs]; exact hInv
  | case2 s p rest hs ih =>
    rw [drain_eq_step h s p rest hs]
    exact ih (inv_step h roots s p rest hs hInv)

/-- Modelled from the spec: the RootScan phase.  Precise roots (globals,
pinned values) are reported with visitRange; the native stack extents are
scanned conservatively with visitPotentialRange. -/
def rootScan (h : Heap) (roots stackWords : List Nat) : MarkState :=
  visitPotentialRange h (visitRange h ⟨[], []⟩ roots) stackWords

/-- Modelled from the spec: RootScan followed by Draining to the empty
Trace Stack. -/
def markPhase (h : Heap) (roots stackWords : List Nat) : MarkState :=
  drain h (rootScan h roots stackWords)

theorem rootScan_eq_visitRange (h : Heap) (roots stackWords : List Nat) :
    rootScan h roots stackWords = visitRange h ⟨[], []⟩ (roots ++ stackWords) := by
  unfold rootScan visitRange
  rw [visitPotentialRange_eq_visitRange, visitRange, List.foldl_append]

theorem rootScan_marked_iff (h : Heap) (roots stackWords : List Nat) (q : Nat) :
    q ∈ (rootScan h roots stackWords).marked
      ↔ (q ∈ roots ++ stackWords ∧ isValid h q) := by
  rw [rootScan_eq_visitRange]
  constructor
  · intro hq
    rcases visitRange_marked_sub h (roots ++ stackWords) ⟨[], []⟩ q hq with hq | hq
    · cases hq
    · exact hq
  · intro ⟨hmem, hv⟩
    exact visitRange_covers h (roots ++ stackWords) ⟨[], []⟩ q hmem hv

theorem rootScan_inv (h : Heap) (roots stackWords : List Nat) :
    Inv h (roots ++ stackWords) (rootScan h roots stackWords) := by
  refine ⟨?_, ?_, ?_⟩
  · intro q hq
    obtain ⟨hmem, hv⟩ := (rootScan_marked_iff h roots stackWords q).mp hq
    exact Reaches.root q hmem hv
  · intro q hq
    rw [rootScan_eq_visitRange] at hq ⊢
    rcases visitRange_stack_sub h (roots ++ stackWords) ⟨[], []⟩ q hq with hq | hq
    · cases hq
    · exact hq
  · intro r hr hnr q hq
    rw [rootScan_eq_visitRange] at hr hnr
    exact absurd (visitRange_new_marked_stack h (roots ++ stackWords) ⟨[], []⟩ r hr
      (by intro hc; cases hc)) hnr

/-- The mark phase computes exactly the set of allocations reachable from
the combined root list: soundness and completeness of the work-list
traversal. -/
theorem markPhase_marked_iff (h : Heap) (roots stackWords : List Nat) (q : Nat) :
    q ∈ (markPhase h roots stackWords).marked
      ↔ Reaches h (roots ++ stackWords) q := by
  have hinv : Inv h (roots ++ stackWords) (markPhase h roots stackWords) :=
    drain_inv h (roots ++ stackWords) (rootScan h roots stackWords)
      (rootScan_inv h roots stackWords)
  constructor
  · exact fun hq => hinv.sound q hq
  · intro hr
    induction hr with
    | root p hmem hv =>
      exact drain_marked_mono h (rootScan h roots stackWords)
        ((rootScan_marked_iff h roots stackWords p).mpr ⟨hmem, hv⟩)
    | step p q hp hq ih =>
      have hnil : (markPhase h roots stackWords).stack = [] :=
        drain_stack_nil h (rootScan h roots stackWords)
      exact hinv.closed p ih (by rw [hnil]; exact List.not_mem_nil p) q hq

/-- Modelled from the spec: the outcome of one full collection cycle.  The
surviving heap keeps exactly the marked allocations with their headers
unchanged and mark bits cleared; unmarked allocations without a finalizer
and without weak references are freed immediately during Sweeping; the
others are appended in sweep-discovery order to the two deferred FIFO
queues, which FinalizeDrain then drains in order, invoking each callback
once. -/
structure CollectionResult where
  heap : Heap
  freed : List Nat
  pending_finalization_list : List Nat
  weakrefs_needing_callback_list : List Nat
  finalizersRun : List Nat
  weakrefCallbacksRun : List Nat
  deriving DecidableEq, Repr

/-- Modelled from the spec: runCollection.  A synchronous full cycle:
RootScan, Draining, Sweeping, FinalizeDrain.  It does not consult the
enable flag: manual collection requests bypass it by design. -/
def runCollection (h : Heap) (roots stackWords : List Nat) : CollectionResult :=
  let m := (markPhase h roots stackWords).marked
  let dead := h.allocs.filter (fun e => e.fst ∉ m)
  { heap := ⟨h.allocs.filter (fun e => e.fst ∈ m)⟩
    freed := (dead.filter (fun e => !e.snd.hasFinalizer && !e.snd.hasWeakrefs)).map Prod.fst
    pending_finalization_list := (dead.filter (fun e => e.snd.hasFinalizer)).map Prod.fst
    weakrefs_needing_callback_list := (dead.filter (fun e => e.snd.hasWeakrefs)).map Prod.fst
    finalizersRun := (dead.filter (fun e => e.snd.hasFinalizer)).map Prod.fst
    weakrefCallbacksRun := (dead.filter (fun e => e.snd.hasWeakrefs)).map Prod.fst }

theorem find_filter_key (l : List (Nat × GCAllocation)) (P : Nat → Bool) (p : Nat) :
    (l.filter (fun e => P e.fst)).find? (fun e => e.fst = p)
      = if P p then l.find? (fun e => e.fst = p) else none := by
  induction l with
  | nil => simp
  | cons e l ih =>
    by_cases hep : e.fst = p
    · by_cases hP : P p
      · rw [List.filter_cons, if_pos (by rw [hep]; exact hP)]
        rw [List.find?_cons_of_pos _ (by simp [hep]), if_pos hP,
          List.find?_cons_of_pos _ (by simp [hep])]
      · rw [List.filter_cons, if_neg (by rw [hep]; simp [hP]), ih, if_neg hP, if_neg hP]
    · by_cases hPe : P e.fst
      · rw [List.filter_cons, if_pos (by simp [hPe]),
          List.find?_cons_of_neg _ (by simp [hep]), ih,
          List.find?_cons_of_neg _ (by simp [hep])]
      · rw [List.filter_cons, if_neg (by simp [hPe]), ih,
          List.find?_cons_of_neg _ (by simp [hep])]

theorem runCollection_heap_lookup (h : Heap) (roots stackWords : List Nat) (p : Nat) :
    (runCollection h roots stackWords).heap.lookup p
      = if p ∈ (markPhase h roots stackWords).marked then h.lookup p else none := by
  unfold runCollection Heap.lookup
  simp only
  rw [find_filter_key h.allocs (fun q => decide (q ∈ (markPhase h roots stackWords).marked)) p]
  by_cases hm : p ∈ (markPhase h roots stackWords).marked
  · rw [if_pos (by simp [hm]), if_pos hm]
  · rw [if_neg (by simp [hm]), if_neg hm]
    rfl

/-- Modelled from the spec: the process-wide control state, holding the
boolean flag governing automatic collection triggering.  It defaults to
enabled at process start. -/
structure GCGlobalState where
  enabled : Bool
  deriving DecidableEq, Repr

/-- Modelled from the spec: gcIsEnabled reads the automatic-collection
flag. -/
def gcIsEnabled (st : GCGlobalState) : Bool :=
  st.enabled

/-- Modelled from the spec: disableGC clears the automatic-collection
flag. -/
def disableGC (st : GCGlobalState) : GCGlobalState :=
  { st with enabled := false }

/-- Modelled from the spec: enableGC sets the automatic-collection flag. -/
def enableGC (st : GCGlobalState) : GCGlobalState :=
  { st with enabled := true }

/-- Modelled from the spec: the automatic triggering heuristic on an
allocation.  A cycle (starting with RootScan) is entered only when the
allocation-threshold heuristic fires and gcIsEnabled is true. -/
def maybeTriggerCollection (st : GCGlobalState) (thresholdReached : Bool)
    (h : Heap) (roots stackWords : List Nat) : Option CollectionResult :=
  if gcIsEnabled st && thresholdReached then some (runCollection h roots stackWords)
  else none

/-- Modelled from the spec: an explicit manual collection request.  It runs
the full cycle regardless of the enable flag, which is therefore not
consulted. -/
def manualCollection (st : GCGlobalState) (h : Heap) (roots stackWords : List Nat) :
    CollectionResult :=
  runCollection h roots stackWords

/-- Modelled from the spec: isValidGCMemory, the debug probe for whether a
value is a valid gc-allocated user pointer, via the header lookup.  The
model is a total function, so the probe returns on every input. -/
def isValidGCMemory (h : Heap) (p : Nat) : Bool :=
  (h.lookup p).isSome

/-- Modelled from the spec: isValidGCObject, whether p is valid gc memory
and is set to have Python destructor semantics applied, which in the model
is the PYTHON classification. -/
def isValidGCObject (h : Heap) (p : Nat) : Bool :=
  match h.lookup p with
  | some a => a.kind = GCKind.PYTHON
  | none => false

/-- A user pointer not mapped by any existing allocation header. -/
def freshPtr (h : Heap) : Nat :=
  (h.allocs.map Prod.fst).foldr max 0 + 1

/-- Modelled from the spec: gc_alloc carves a fresh allocation with the
caller-supplied kind fixed at creation, empty contents, and no finalizer
or weak references registered yet. -/
def gc_alloc (h : Heap) (nbytes : Nat) (kind : GCKind) : Heap × Nat :=
  let p := freshPtr h
  (⟨(p, ⟨nbytes, kind, [], false, false⟩) :: h.allocs⟩, p)

/-- Modelled from the spec: gc_free manually releases the allocation at p,
bypassing the mark-sweep bookkeeping. -/
def gc_free (h : Heap) (p : Nat) : Heap :=
  ⟨h.allocs.filter (fun e => e.fst ≠ p)⟩

/-- GCAllocatedRuntime operator new from src/gc/gc.h line 87: it forwards
to gc_alloc with size and GCKind::RUNTIME. -/
def GCAllocatedRuntime.opNew (h : Heap) (size : Nat) : Heap × Nat :=
  gc_alloc h size GCKind.RUNTIME

/-- GCAllocatedRuntime operator delete from src/gc/gc.h line 88: it
forwards to gc_free. -/
def GCAllocatedRuntime.opDelete (h : Heap) (p : Nat) : Heap :=
  gc_free h p

/-- UniqueScanningHandle from the gc header: the single owned pointer,
with 0 standing for the C++ null pointer.  With MOVING_GC equal to 0 the
pushGCObject and popGCObject calls are compiled out, so only the delete
calls remain observable. -/
structure UniqueScanningHandle where
  obj : Nat
  deriving DecidableEq, Repr

/-- Deletions performed by a C++ delete expression: deleting the null
pointer is a no-op, deleting a non-null pointer destroys exactly it. -/
def deleteObj (p : Nat) : List Nat :=
  if p = 0 then [] else [p]

/-- UniqueScanningHandle constructor: stores the pointer, deleting
nothing. -/
def UniqueScanningHandle.make (p : Nat) : UniqueScanningHandle :=
  ⟨p⟩

/-- UniqueScanningHandle get and the arrow operator both return the held
pointer. -/
def UniqueScanningHandle.get (u : UniqueScanningHandle) : Nat :=
  u.obj

/-- UniqueScanningHandle reset: deletes the previously held object, then
installs t.  Returns the new handle and the deletions performed. -/
def UniqueScanningHandle.reset (u : UniqueScanningHandle) (t : Nat) :
    UniqueScanningHandle × List Nat :=
  (⟨t⟩, deleteObj u.obj)

/-- UniqueScanningHandle destructor: deletes the currently held object. -/
def UniqueScanningHandle.destroy (u : UniqueScanningHandle) : List Nat :=
  deleteObj u.obj

/-- Runs a sequence of reset calls on a handle, collecting the deletions in
order. -/
def handleSteps (u : UniqueScanningHandle) (resets : List Nat) :
    UniqueScanningHandle × List Nat :=
  match resets with
  | [] => (u, [])
  | t :: ts =>
    ((handleSteps (u.reset t).fst ts).fst,
      (u.reset t).snd ++ (handleSteps (u.reset t).fst ts).snd)

/-- All deletions over a full handle lifetime: construction with p0, the
given sequence of reset calls, then destruction. -/
def handleLifetimeDeletions (p0 : Nat) (resets : List Nat) : List Nat :=
  (handleSteps (UniqueScanningHandle.make p0) resets).snd
    ++ (handleSteps (UniqueScanningHandle.make p0) resets).fst.destroy

theorem visit_noop_marked (h : Heap) (s : MarkState) (p : Nat) (hm : p ∈ s.marked) :
    visit h s p = s := by
  unfold visit
  exact if_neg (fun hc => hc.2 hm)

theorem lookup_mem (h : Heap) (p : Nat) (a : GCAllocation) (hl : h.lookup p = some a) :
    (p, a) ∈ h.allocs := by
  unfold Heap.lookup at hl
  rcases Option.map_eq_some'.mp hl with ⟨e, he, hsnd⟩
  have hfst : e.fst = p := by
    have := List.find?_some he
    exact of_decide_eq_true this
  have : e = (p, a) := by
    cases e
    simp only [Prod.mk.injEq]
    exact ⟨hfst, hsnd⟩
  exact this ▸ List.mem_of_find?_eq_some he

theorem lookup_unique (h : Heap) (p : Nat) (a : GCAllocation)
    (hnd : (h.allocs.map Prod.fst).Nodup) (hl : h.lookup p = some a) :
    ∀ e ∈ h.allocs, e.fst = p → e = (p, a) := by
  intro e he hfst
  exact List.inj_on_of_nodup_map hnd he (lookup_mem h p a hl) (by rw [hfst])

theorem handleLifetimeDeletions_eq (p0 : Nat) (resets : List Nat) :
    handleLifetimeDeletions p0 resets
      = (p0 :: resets).filter (fun x => x ≠ 0) := by
  induction resets generalizing p0 with
  | nil =>
    unfold handleLifetimeDeletions handleSteps UniqueScanningHandle.destroy
      UniqueScanningHandle.make deleteObj
    by_cases hp : p0 = 0
    · simp [hp]
    · simp [hp]
  | cons t ts ih =>
    have hstep : handleLifetimeDeletions p0 (t :: ts)
        = deleteObj p0 ++ handleLifetimeDeletions t ts := by
      simp only [handleLifetimeDeletions, handleSteps, UniqueScanningHandle.reset,
        UniqueScanningHandle.make]
      rw [List.append_assoc]
    rw [hstep, ih]
    by_cases hp : p0 = 0
    · simp [deleteObj, hp]
    · simp [deleteObj, hp]

/-- A small concrete heap used by the witnesses: a PYTHON object at 1
pointing at a PRECISE block at 2, which points at an UNTRACKED block at 3;
an unreachable CONSERVATIVE block at 4 with a registered finalizer whose
words are one garbage value and one live pointer. -/
def exampleHeap : Heap :=
  ⟨[(1, ⟨16, GCKind.PYTHON, [2], false, false⟩),
    (2, ⟨8, GCKind.PRECISE, [3], false, false⟩),
    (3, ⟨8, GCKind.UNTRACKED, [], false, false⟩),
    (4, ⟨8, GCKind.CONSERVATIVE, [99, 1], true, false⟩)]⟩

/-- C6: visitIf calls visit exactly when the pointer is non-null and does
nothing on the null pointer: visitIf is visit guarded by a null check. -/
theorem c6_visitIf_guard (h : Heap) (s : MarkState) (p : Nat) :
    (p ≠ 0 → visitIf h s p = visit h s p) ∧ (p = 0 → visitIf h s p = s) := by
  constructor
  · intro hp
    unfold visitIf
    exact if_pos hp
  · intro hp
    unfold visitIf
    exact if_neg (fun hc => hc hp)

theorem c6_witness :
    (3 ≠ 0 ∧ visitIf exampleHeap ⟨[], []⟩ 3 = visit exampleHeap ⟨[], []⟩ 3)
    ∧ ((0 : Nat) = 0 ∧ visitIf exampleHeap ⟨[], []⟩ 0 = ⟨[], []⟩) :=
  ⟨⟨by decide, (c6_visitIf_guard exampleHeap ⟨[], []⟩ 3).1 (by decide)⟩,
   ⟨rfl, (c6_visitIf_guard exampleHeap ⟨[], []⟩ 0).2 rfl⟩⟩

/-- C7: the four redundant visitation methods have empty bodies in the
non-moving design: they change neither the mark bits nor the Trace Stack
nor anything else, for every argument. -/
theorem c7_redundant_noop (s : MarkState) (p : Nat) (ws : List Nat) :
    visitRedundant s p = s
    ∧ visitRedundantRange s ws = s
    ∧ visitPotentialRedundant s p = s
    ∧ visitPotentialRangeRedundant s ws = s
    ∧ (visitRedundant s p).marked = s.marked
    ∧ (visitPotentialRedundant s p).stack = s.stack :=
  ⟨rfl, rfl, rfl, rfl, rfl, rfl⟩

/-- C8: the debug validity probes return false (rather than failing) on
any input that does not resolve to an allocation, isValidGCObject implies
isValidGCMemory, and on every actually gc-allocated pointer isValidGCMemory
returns true, so replacing it by true agrees with it on all pointers
produced by the allocator. -/
theorem c8_valid_probes (h : Heap) (p : Nat) :
    (h.lookup p = none → isValidGCMemory h p = false ∧ isValidGCObject h p = false)
    ∧ (isValidGCObject h p = true → isValidGCMemory h p = true)
    ∧ (∀ a, h.lookup p = some a → isValidGCMemory h p = true) := by
  refine ⟨?_, ?_, ?_⟩
  · intro hl
    unfold isValidGCMemory isValidGCObject
    rw [hl]
    exact ⟨rfl, rfl⟩
  · intro hobj
    cases hl : h.lookup p with
    | none =>
      unfold isValidGCObject at hobj
      rw [hl] at hobj
      cases hobj
    | some a =>
      unfold isValidGCMemory
      rw [hl]
      rfl
  · intro a hl
    unfold isValidGCMemory
    rw [hl]
    rfl

theorem c8_witness :
    (exampleHeap.lookup 999 = none
      ∧ isValidGCMemory exampleHeap 999 = false ∧ isValidGCObject exampleHeap 999 = false)
    ∧ (exampleHeap.lookup 2 = some ⟨8, GCKind.PRECISE, [3], false, false⟩
      ∧ isValidGCMemory exampleHeap 2 = true) :=
  ⟨⟨by decide, (c8_valid_probes exampleHeap 999).1 (by decide)⟩,
   ⟨by decide, (c8_valid_probes exampleHeap 2).2.2 ⟨8, GCKind.PRECISE, [3], false, false⟩
      (by decide)⟩⟩

/-- C1: an allocation is gone from the surviving heap at the end of a
runCollection cycle exactly when no path of pointer edges from the root
set (precise roots together with conservatively scanned stack words)
reaches it, and every reachable allocation survives the cycle with its
header unchanged. -/
theorem c1_runCollection_reachability (h : Heap) (roots stackWords : List Nat)
    (p : Nat) (hv : isValid h p) :
    ((runCollection h roots stackWords).heap.lookup p = none
        ↔ ¬ Reaches h (roots ++ stackWords) p)
    ∧ (Reaches h (roots ++ stackWords) p
        → (runCollection h roots stackWords).heap.lookup p = h.lookup p) := by
  have hchar := runCollection_heap_lookup h roots stackWords p
  have hmark := markPhase_marked_iff h roots stackWords p
  refine ⟨⟨?_, ?_⟩, ?_⟩
  · intro hnone hr
    rw [hchar, if_pos (hmark.mpr hr)] at hnone
    unfold isValid at hv
    rw [hnone] at hv
    cases hv
  · intro hnr
    rw [hchar, if_neg (fun hm => hnr (hmark.mp hm))]
  · intro hr
    rw [hchar, if_pos (hmark.mpr hr)]

theorem c1_witness :
    isValid exampleHeap 4 = true
    ∧ (((runCollection exampleHeap [1] []).heap.lookup 4 = none
          ↔ ¬ Reaches exampleHeap ([1] ++ []) 4)
      ∧ (Reaches exampleHeap ([1] ++ []) 4
          → (runCollection exampleHeap [1] []).heap.lookup 4 = exampleHeap.lookup 4)) :=
  ⟨by decide, c1_runCollection_reachability exampleHeap [1] [] 4 (by decide)⟩

/-- C2: visiting a live user pointer whose mark bit is unset sets the bit
and pushes the pointer exactly once; visiting an already marked pointer
changes nothing; so two visits of the same live pointer in one cycle
produce exactly one push. -/
theorem c2_visit_idempotent (h : Heap) (s : MarkState) (p : Nat)
    (hv : isValid h p) :
    (p ∉ s.marked → visit h s p = ⟨p :: s.marked, p :: s.stack⟩)
    ∧ (p ∈ s.marked → visit h s p = s)
    ∧ visit h (visit h s p) p = visit h s p
    ∧ (p ∉ s.marked → (visit h (visit h s p) p).stack.length = s.stack.length + 1) := by
  have hfresh : p ∉ s.marked → visit h s p = ⟨p :: s.marked, p :: s.stack⟩ := by
    intro hnm
    unfold visit
    exact if_pos ⟨hv, hnm⟩
  have htwice : visit h (visit h s p) p = visit h s p :=
    visit_noop_marked h (visit h s p) p (visit_marks h s p hv)
  refine ⟨hfresh, visit_noop_marked h s p, htwice, ?_⟩
  intro hnm
  rw [htwice, hfresh hnm]
  rfl

theorem c2_witness :
    isValid exampleHeap 1 = true
    ∧ ((1 ∉ MarkState.marked ⟨[], []⟩ → visit exampleHeap ⟨[], []⟩ 1 = ⟨[1], [1]⟩)
      ∧ (1 ∈ MarkState.marked ⟨[], []⟩ → visit exampleHeap ⟨[], []⟩ 1 = ⟨[], []⟩)
      ∧ visit exampleHeap (visit exampleHeap ⟨[], []⟩ 1) 1 = visit exampleHeap ⟨[], []⟩ 1
      ∧ (1 ∉ MarkState.marked ⟨[], []⟩
          → (visit exampleHeap (visit exampleHeap ⟨[], []⟩ 1) 1).stack.length
              = (MarkState.stack ⟨[], []⟩).length + 1)) :=
  ⟨by decide, c2_visit_idempotent exampleHeap ⟨[], []⟩ 1 (by decide)⟩

/-- C3: conservative scanning is safe.  A word that does not resolve via
the header lookup to a live allocation leaves the visitor state unchanged;
every pointer newly marked by visitPotential or visitPotentialRange is a
word of the scanned input that resolves to a live allocation. -/
theorem c3_visitPotential_safe (h : Heap) (s : MarkState) (w : Nat) (ws : List Nat) :
    (isValid h w = false → visitPotential h s w = s)
    ∧ (∀ q, q ∈ (visitPotential h s w).marked
        → q ∈ s.marked ∨ (q = w ∧ isValid h w = true))
    ∧ (∀ q, q ∈ (visitPotentialRange h s ws).marked
        → q ∈ s.marked ∨ (q ∈ ws ∧ isValidGCMemory h q = true)) := by
  refine ⟨?_, ?_, ?_⟩
  · intro hw
    unfold visitPotential
    exact if_neg (by rw [hw]; exact Bool.false_ne_true)
  · intro q hq
    rw [visitPotential_eq_visit] at hq
    exact visit_marked_sub h s w q hq
  · intro q hq
    rw [visitPotentialRange_eq_visitRange] at hq
    exact visitRange_marked_sub h ws s q hq

theorem c3_witness :
    isValid exampleHeap 99 = false
    ∧ visitPotential exampleHeap ⟨[], []⟩ 99 = ⟨[], []⟩ :=
  ⟨by decide,
   (c3_visitPotential_safe exampleHeap ⟨[], []⟩ 99 [99, 1]).1 (by decide)⟩

/-- C4: the process-wide flag only gates automatic triggering.  With the
flag cleared no allocation-heuristic trigger ever starts a cycle, while an
explicit manual request ignores the flag and runs the full cycle to
completion, draining the Trace Stack to empty; disableGC and enableGC
toggle exactly this flag. -/
theorem c4_disable_gating (st : GCGlobalState) (h : Heap)
    (roots stackWords : List Nat) (t : Bool) (hd : gcIsEnabled st = false) :
    maybeTriggerCollection st t h roots stackWords = none
    ∧ (∀ st2 : GCGlobalState,
        manualCollection st2 h roots stackWords = runCollection h roots stackWords)
    ∧ (markPhase h roots stackWords).stack = []
    ∧ gcIsEnabled (disableGC st) = false
    ∧ gcIsEnabled (enableGC st) = true := by
  refine ⟨?_, fun st2 => rfl, ?_, rfl, rfl⟩
  · unfold maybeTriggerCollection
    rw [hd]
    exact if_neg (by simp)
  · unfold markPhase
    exact drain_stack_nil h (rootScan h roots stackWords)

theorem c4_witness :
    gcIsEnabled ⟨false⟩ = false
    ∧ (maybeTriggerCollection ⟨false⟩ true exampleHeap [1] [] = none
      ∧ (∀ st2 : GCGlobalState,
          manualCollection st2 exampleHeap [1] [] = runCollection exampleHeap [1] [])
      ∧ (markPhase exampleHeap [1] []).stack = []
      ∧ gcIsEnabled (disableGC ⟨false⟩) = false
      ∧ gcIsEnabled (enableGC ⟨false⟩) = true) :=
  ⟨by decide, c4_disable_gating ⟨false⟩ exampleHeap [1] [] true (by decide)⟩

theorem dead_filter_mem (h : Heap) (m : List Nat) (P : GCAllocation → Bool)
    (p : Nat) (a : GCAllocation) (hnd : (h.allocs.map Prod.fst).Nodup)
    (hl : h.lookup p = some a) :
    p ∈ (((h.allocs.filter (fun e => e.fst ∉ m)).filter (fun e => P e.snd)).map Prod.fst)
      ↔ (p ∉ m ∧ P a = true) := by
  constructor
  · intro hp
    rcases List.mem_map.mp hp with ⟨e, he, hfst⟩
    rcases List.mem_filter.mp he with ⟨he2, hP⟩
    rcases List.mem_filter.mp he2 with ⟨hmem, hm⟩
    have heq : e = (p, a) := lookup_unique h p a hnd hl e hmem hfst
    rw [heq] at hP hm
    exact ⟨by simpa using hm, hP⟩
  · intro ⟨hm, hP⟩
    refine List.mem_map.mpr ⟨(p, a), ?_, rfl⟩
    exact List.mem_filter.mpr
      ⟨List.mem_filter.mpr ⟨lookup_mem h p a hl, by simpa using hm⟩, hP⟩

theorem pending_sublist_keys (h : Heap) (m : List Nat) (P : GCAllocation → Bool) :
    List.Sublist
      (((h.allocs.filter (fun e => e.fst ∉ m)).filter (fun e => P e.snd)).map Prod.fst)
      (h.allocs.map Prod.fst) :=
  List.Sublist.map Prod.fst
    ((List.filter_sublist _).trans (List.filter_sublist _))

/-- C5: at sweep time an unmarked allocation carrying a finalizer or
outstanding weak references is appended to the respective deferred FIFO
queue instead of being freed; both queues hold entries in sweep-discovery
order (a sublist of the heap enumeration), and FinalizeDrain invokes the
queued finalizers and the queued weak-reference callbacks exactly once
each, in exactly that order, after the sweep has completed. -/
theorem c5_finalizer_deferral (h : Heap) (roots stackWords : List Nat)
    (p : Nat) (a : GCAllocation) (hnd : (h.allocs.map Prod.fst).Nodup)
    (hl : h.lookup p = some a) :
    (p ∈ (runCollection h roots stackWords).pending_finalization_list
        ↔ (¬ Reaches h (roots ++ stackWords) p ∧ a.hasFinalizer = true))
    ∧ (p ∈ (runCollection h roots stackWords).weakrefs_needing_callback_list
        ↔ (¬ Reaches h (roots ++ stackWords) p ∧ a.hasWeakrefs = true))
    ∧ (p ∈ (runCollection h roots stackWords).pending_finalization_list
        → p ∉ (runCollection h roots stackWords).freed)
    ∧ (runCollection h roots stackWords).finalizersRun
        = (runCollection h roots stackWords).pending_finalization_list
    ∧ (p ∈ (runCollection h roots stackWords).pending_finalization_list
        → (runCollection h roots stackWords).finalizersRun.count p = 1)
    ∧ List.Sublist (runCollection h roots stackWords).pending_finalization_list
        (h.allocs.map Prod.fst)
    ∧ (p ∈ (runCollection h roots stackWords).weakrefs_needing_callback_list
        → p ∉ (runCollection h roots stackWords).freed)
    ∧ (runCollection h roots stackWords).weakrefCallbacksRun
        = (runCollection h roots stackWords).weakrefs_needing_callback_list
    ∧ (p ∈ (runCollection h roots stackWords).weakrefs_needing_callback_list
        → (runCollection h roots stackWords).weakrefCallbacksRun.count p = 1)
    ∧ List.Sublist (runCollection h roots stackWords).weakrefs_needing_callback_list
        (h.allocs.map Prod.fst) := by
  have hmark := markPhase_marked_iff h roots stackWords p
  have hfin :
      p ∈ (runCollection h roots stackWords).pending_finalization_list
        ↔ (p ∉ (markPhase h roots stackWords).marked ∧ a.hasFinalizer = true) :=
    dead_filter_mem h (markPhase h roots stackWords).marked
      (fun b => b.hasFinalizer) p a hnd hl
  have hweak :
      p ∈ (runCollection h roots stackWords).weakrefs_needing_callback_list
        ↔ (p ∉ (markPhase h roots stackWords).marked ∧ a.hasWeakrefs = true) :=
    dead_filter_mem h (markPhase h roots stackWords).marked
      (fun b => b.hasWeakrefs) p a hnd hl
  have hfreed :
      p ∈ (runCollection h roots stackWords).freed
        ↔ (p ∉ (markPhase h roots stackWords).marked
            ∧ (!a.hasFinalizer && !a.hasWeakrefs) = true) :=
    dead_filter_mem h (markPhase h roots stackWords).marked
      (fun b => !b.hasFinalizer && !b.hasWeakrefs) p a hnd hl
  have hsub : List.Sublist (runCollection h roots stackWords).pending_finalization_list
      (h.allocs.map Prod.fst) :=
    pending_sublist_keys h (markPhase h roots stackWords).marked
      (fun b => b.hasFinalizer)
  have hsubw : List.Sublist (runCollection h roots stackWords).weakrefs_needing_callback_list
      (h.allocs.map Prod.fst) :=
    pending_sublist_keys h (markPhase h roots stackWords).marked
      (fun b => b.hasWeakrefs)
  refine ⟨?_, ?_, ?_, rfl, ?_, hsub, ?_, rfl, ?_, hsubw⟩
  · rw [hfin]
    constructor
    · exact fun ⟨hm, hf⟩ => ⟨fun hr => hm (hmark.mpr hr), hf⟩
    · exact fun ⟨hr, hf⟩ => ⟨fun hm => hr (hmark.mp hm), hf⟩
  · rw [hweak]
    constructor
    · exact fun ⟨hm, hf⟩ => ⟨fun hr => hm (hmark.mpr hr), hf⟩
    · exact fun ⟨hr, hf⟩ => ⟨fun hm => hr (hmark.mp hm), hf⟩
  · intro hp hpf
    obtain ⟨_, hf⟩ := hfin.mp hp
    obtain ⟨_, hb⟩ := hfreed.mp hpf
    rw [hf] at hb
    simp at hb
  · intro hp
    have hnodup : (runCollection h roots stackWords).pending_finalization_list.Nodup :=
      hnd.sublist hsub
    exact List.count_eq_one_of_mem hnodup hp
  · intro hp hpf
    obtain ⟨_, hf⟩ := hweak.mp hp
    obtain ⟨_, hb⟩ := hfreed.mp hpf
    rw [hf] at hb
    simp at hb
  · intro hp
    have hnodup :
        (runCollection h roots stackWords).weakrefs_needing_callback_list.Nodup :=
      hnd.sublist hsubw
    exact List.count_eq_one_of_mem hnodup hp

theorem c5_witness :
    ((exampleHeap.allocs.map Prod.fst).Nodup
      ∧ exampleHeap.lookup 4 = some ⟨8, GCKind.CONSERVATIVE, [99, 1], true, false⟩)
    ∧ ((4 ∈ (runCollection exampleHeap [1] []).pending_finalization_list
          ↔ (¬ Reaches exampleHeap ([1] ++ []) 4 ∧ (true : Bool) = true))
      ∧ (4 ∈ (runCollection exampleHeap [1] []).weakrefs_needing_callback_list
          ↔ (¬ Reaches exampleHeap ([1] ++ []) 4 ∧ (false : Bool) = true))
      ∧ (4 ∈ (runCollection exampleHeap [1] []).pending_finalization_list
          → 4 ∉ (runCollection exampleHeap [1] []).freed)
      ∧ (runCollection exampleHeap [1] []).finalizersRun
          = (runCollection exampleHeap [1] []).pending_finalization_list
      ∧ (4 ∈ (runCollection exampleHeap [1] []).pending_finalization_list
          → (runCollection exampleHeap [1] []).finalizersRun.count 4 = 1)
      ∧ List.Sublist (runCollection exampleHeap [1] []).pending_finalization_list
          (exampleHeap.allocs.map Prod.fst)
      ∧ (4 ∈ (runCollection exampleHeap [1] []).weakrefs_needing_callback_list
          → 4 ∉ (runCollection exampleHeap [1] []).freed)
      ∧ (runCollection exampleHeap [1] []).weakrefCallbacksRun
          = (runCollection exampleHeap [1] []).weakrefs_needing_callback_list
      ∧ (4 ∈ (runCollection exampleHeap [1] []).weakrefs_needing_callback_list
          → (runCollection exampleHeap [1] []).weakrefCallbacksRun.count 4 = 1)
      ∧ List.Sublist (runCollection exampleHeap [1] []).weakrefs_needing_callback_list
          (exampleHeap.allocs.map Prod.fst)) :=
  ⟨⟨by decide, by decide⟩,
   c5_finalizer_deferral exampleHeap [1] [] 4 ⟨8, GCKind.CONSERVATIVE, [99, 1], true, false⟩
     (by decide) (by decide)⟩

/-- C9: operator new of GCAllocatedRuntime obtains its storage from
gc_alloc with kind RUNTIME, the created allocation is classified RUNTIME,
operator delete is exactly gc_free, and a collection cycle never alters a
surviving allocation header, so the RUNTIME classification persists for
the whole lifetime. -/
theorem c9_runtime_allocation (h : Heap) (size : Nat) :
    GCAllocatedRuntime.opNew h size = gc_alloc h size GCKind.RUNTIME
    ∧ (GCAllocatedRuntime.opNew h size).fst.lookup (GCAllocatedRuntime.opNew h size).snd
        = some ⟨size, GCKind.RUNTIME, [], false, false⟩
    ∧ (∀ a, (GCAllocatedRuntime.opNew h size).fst.lookup (GCAllocatedRuntime.opNew h size).snd
          = some a → a.kind = GCKind.RUNTIME)
    ∧ (∀ p, GCAllocatedRuntime.opDelete h p = gc_free h p)
    ∧ (∀ h2 : Heap, ∀ roots stackWords : List Nat, ∀ q : Nat, ∀ b : GCAllocation,
        (runCollection h2 roots stackWords).heap.lookup q = some b
          → h2.lookup q = some b) := by
  have hlook : (GCAllocatedRuntime.opNew h size).fst.lookup
      (GCAllocatedRuntime.opNew h size).snd
        = some ⟨size, GCKind.RUNTIME, [], false, false⟩ := by
    unfold GCAllocatedRuntime.opNew gc_alloc Heap.lookup
    rw [List.find?_cons_of_pos _ (by simp)]
    rfl
  refine ⟨rfl, hlook, ?_, fun p => rfl, ?_⟩
  · intro a ha
    rw [hlook] at ha
    cases ha
    rfl
  · intro h2 roots stackWords q b hb
    rw [runCollection_heap_lookup] at hb
    by_cases hm : q ∈ (markPhase h2 roots stackWords).marked
    · rwa [if_pos hm] at hb
    · rw [if_neg hm] at hb
      cases hb

theorem c9_witness :
    ((GCAllocatedRuntime.opNew exampleHeap 24).fst.lookup
        (GCAllocatedRuntime.opNew exampleHeap 24).snd
      = some ⟨24, GCKind.RUNTIME, [], false, false⟩)
    ∧ GCAllocation.kind ⟨24, GCKind.RUNTIME, [], false, false⟩ = GCKind.RUNTIME :=
  ⟨(c9_runtime_allocation exampleHeap 24).2.1,
   (c9_runtime_allocation exampleHeap 24).2.2.1 ⟨24, GCKind.RUNTIME, [], false, false⟩
     (by decide)⟩

/-- C10: a UniqueScanningHandle owns at most one object: get returns the
held pointer, reset deletes the previous object before installing the new
one, the destructor deletes the current object, over a whole lifetime each
distinct non-null held pointer is deleted exactly once, and a handle
holding the null pointer deletes nothing. -/
theorem c10_unique_handle (p0 t q : Nat) (resets : List Nat)
    (hq0 : q ≠ 0) (hmem : q ∈ p0 :: resets)
    (hnd : ((p0 :: resets).filter (fun x => x ≠ 0)).Nodup) :
    (UniqueScanningHandle.make p0).get = p0
    ∧ ((UniqueScanningHandle.make p0).reset t).fst.get = t
    ∧ ((UniqueScanningHandle.make p0).reset t).snd = deleteObj p0
    ∧ handleLifetimeDeletions p0 resets = (p0 :: resets).filter (fun x => x ≠ 0)
    ∧ (handleLifetimeDeletions p0 resets).count q = 1
    ∧ handleLifetimeDeletions 0 [] = [] := by
  refine ⟨rfl, rfl, rfl, handleLifetimeDeletions_eq p0 resets, ?_, by decide⟩
  rw [handleLifetimeDeletions_eq]
  have hqf : q ∈ (p0 :: resets).filter (fun x => x ≠ 0) :=
    List.mem_filter.mpr ⟨hmem, by simp [hq0]⟩
  exact List.count_eq_one_of_mem hnd hqf

theorem c10_witness :
    ((5 : Nat) ≠ 0 ∧ 5 ∈ [5, 7]
      ∧ (([5, 7] : List Nat).filter (fun x => x ≠ 0)).Nodup)
    ∧ ((UniqueScanningHandle.make 5).get = 5
      ∧ ((UniqueScanningHandle.make 5).reset 7).fst.get = 7
      ∧ ((UniqueScanningHandle.make 5).reset 7).snd = deleteObj 5
      ∧ handleLifetimeDeletions 5 [7] = ([5, 7] : List Nat).filter (fun x => x ≠ 0)
      ∧ (handleLifetimeDeletions 5 [7]).count 5 = 1
      ∧ handleLifetimeDeletions 0 [] = []) :=
  ⟨⟨by decide, by decide, by decide⟩,
   c10_unique_handle 5 7 5 [7] (by decide) (by decide) (by decide)⟩

end PystonGC
